import Mathlib

/-!
# Verification of the FUDGE guided-decoding core

Shallow embedding of `src/models/fudge/fudge_inference.py`.

Modelling conventions:
* Machine floats that hold finite values are modelled as rationals (`ℚ`).
* `float('-inf')`, the sentinel used to mask logits (lines 82 and 91), is
  modelled as `⊥` in `WithBot ℚ`.
* The exponential used by `torch.softmax` is kept as an abstract parameter
  `E : ℚ → ℚ`; where a theorem needs it, positivity of `E` is assumed
  (the real exponential is everywhere positive).  Softmax of a vector whose
  masked entries are `⊥` contributes weight `0` for those entries, exactly as
  `exp(-inf) = 0` does for float softmax.
* The two neural networks and the tokenizer are external collaborators: they
  are abstract functions from token sequences to score vectors.
* Rational division by zero is total (`x / 0 = 0`) where float division is
  not; no theorem below relies on the value of a division by zero except where
  explicitly noted.
-/

namespace Fudge

/-- `torch.cumsum` along the last dimension (line 86): entry `i` is the sum of
the first `i + 1` entries. -/
def cumsum (l : List ℚ) : List ℚ :=
  (List.range l.length).map (fun i => (l.take (i + 1)).sum)

/-- Weight a possibly-masked score contributes to a softmax: `⊥` models
`-inf`, whose exponential is `0`; `E` models the exponential on finite
values. -/
def expWeight (E : ℚ → ℚ) (x : WithBot ℚ) : ℚ :=
  WithBot.recBotCoe 0 E x

/-- `torch.softmax` over a vector of possibly `-inf` scores (lines 86 and 93). -/
def softmaxW (E : ℚ → ℚ) (xs : List (WithBot ℚ)) : List ℚ :=
  (xs.map (expWeight E)).map (fun a => a / (xs.map (expWeight E)).sum)

/-- `torch.softmax` over unmasked scores (the fudge-score path, line 153). -/
def softmaxQ (E : ℚ → ℚ) (xs : List ℚ) : List ℚ :=
  (xs.map E).map (fun a => a / (xs.map E).sum)

/-- Descending sort of the values alone, as used for the top-k threshold
(`torch.topk(logits, k)[0]`, line 81). -/
def sortDescW (xs : List (WithBot ℚ)) : List (WithBot ℚ) :=
  List.insertionSort (· ≥ ·) xs

/-- The k-th largest score, `torch.topk(logits, k)[0][..., -1]` (line 81). -/
def kthValue (xs : List (WithBot ℚ)) (k : ℕ) : WithBot ℚ :=
  (sortDescW xs).getD (k - 1) ⊥

/-- Top-k filtering (lines 80-82): every score strictly below the k-th largest
score is replaced by `-inf`. -/
def topKFilter (k : ℕ) (xs : List (WithBot ℚ)) : List (WithBot ℚ) :=
  xs.map (fun x => if x < kthValue xs k then ⊥ else x)

/-- Ordering on (score, position) pairs: score descending, ties broken by
position.  This models the deterministic order in which `torch.sort` /
`torch.topk` return equal scores. -/
abbrev keyRel {α : Type} [LinearOrder α] (a b : α × ℕ) : Prop :=
  b.1 < a.1 ∨ (a.1 = b.1 ∧ a.2 ≤ b.2)

/-- The (score, original position) pairs of a vector, sorted descending
(`torch.sort(logits, descending=True)`, line 85, and `torch.topk`, line 133). -/
def sortedPairs {α : Type} [LinearOrder α] (xs : List α) : List (α × ℕ) :=
  List.insertionSort keyRel (xs.enum.map (fun q => (q.2, q.1)))

/-- `Tensor.scatter` / integer-tensor indexing assignment: write `vals[m]` at
position `idx[m]` of `base` (lines 90, 158, 166).  Every index list this file
scatters with is pairwise distinct, so the overwrite order is immaterial; for
duplicate indices the first write is kept. -/
def scatterWrite {α : Type} (base : List α) (idx : List ℕ) (vals : List α) : List α :=
  base.enum.map (fun pr =>
    match (idx.zip vals).find? (fun q => q.1 == pr.1) with
    | some q => q.2
    | none => pr.2)

/-- Nucleus (top-p) removal mask in original vocabulary order (lines 85-90):
sort descending, softmax, cumulative sums, mark positions whose cumulative
probability exceeds `p`, shift the mask one to the right so the first position
above the threshold is also kept, force the first position to survive, and
scatter the mask back through the sort indices. -/
def topPRemove (E : ℚ → ℚ) (p : ℚ) (xs : List (WithBot ℚ)) : List Bool :=
  let sorted := sortedPairs xs
  let probs := softmaxW E (sorted.map Prod.fst)
  let raw := (cumsum probs).map (fun c => decide (p < c))
  let shifted := false :: raw.dropLast
  scatterWrite shifted (sorted.map Prod.snd) shifted

/-- Line 91: set the positions marked for removal to `-inf`. -/
def applyRemove (rem : List Bool) (xs : List (WithBot ℚ)) : List (WithBot ℚ) :=
  List.zipWith (fun x r => if r then (⊥ : WithBot ℚ) else x) xs rem

/-- Line 78: divide the final-position logits by the temperature.  The result
is viewed in `WithBot ℚ` because the following filters mask with `-inf`. -/
def scaledLogits (logits : List ℚ) (temperature : ℚ) : List (WithBot ℚ) :=
  logits.map (fun x => ((x / temperature : ℚ) : WithBot ℚ))

/-- `get_next_token_distribution` (lines 68-93), with the base model's
final-position logits supplied as `logits`.  The function body performs no
validation of any argument: it scales by the temperature, optionally applies
the top-k mask, optionally applies the nucleus mask, and softmaxes. -/
def getNextTokenDistribution (E : ℚ → ℚ) (logits : List ℚ) (temperature : ℚ)
    (topK : Option ℕ) (topP : Option ℚ) : List ℚ :=
  let scaled := scaledLogits logits temperature
  let afterK : List (WithBot ℚ) :=
    match topK with
    | none => scaled
    | some k => topKFilter k scaled
  let afterP : List (WithBot ℚ) :=
    match topP with
    | none => afterK
    | some p => applyRemove (topPRemove E p afterK) afterK
  softmaxW E afterP

/-- Line 78's final-position slice `outputs.logits[:, -1, :]`: from the
model's per-position logits rows, take the last row.  On an empty sequence a
causal model yields no position rows and the slice raises (an index error);
that failure is the error value here. -/
def lastLogitsRow (rows : List (List ℚ)) : Except Unit (List ℚ) :=
  match rows.getLast? with
  | some row => .ok row
  | none => .error ()

/-- `get_next_token_distribution` as called on a token sequence (lines
76-93): run the external base model — which, being causal, returns one logits
row per input position — slice out the final-position row (line 78, failing
on an empty sequence), then apply the row-level pipeline
`getNextTokenDistribution`.  The temperature division and the filters perform
no validation of their own. -/
def getNextTokenDistributionSeq (model : List ℕ → List (List ℚ)) (E : ℚ → ℚ)
    (inputIds : List ℕ) (temperature : ℚ) (topK : Option ℕ) (topP : Option ℚ) :
    Except Unit (List ℚ) :=
  match lastLogitsRow (model inputIds) with
  | .error e => .error e
  | .ok logits => .ok (getNextTokenDistribution E logits temperature topK topP)

/-- `torch.topk(v, k)` over a probability vector, returned as
(value, index) pairs (lines 133-136 and 161-164). -/
def topkPairs (l : List ℚ) (k : ℕ) : List (ℚ × ℕ) :=
  (sortedPairs l).take k

/-- The generation-call parameters of `generate_with_fudge` (lines 95-104). -/
structure GenParams where
  temperature : ℚ
  fudgeTemperature : ℚ
  baseTopK : Option ℕ
  baseTopP : Option ℚ
  fudgeTopK : ℕ
  lambdaWeight : ℚ

/-- Decoder state fixed at construction (`FudgeInference.__init__`): the two
models, the tokenizer's end-of-sequence id, and the checkpoint metadata.  A
model forward pass is abstracted to a function from the token sequence to the
relevant score vector: for the base model the final-position logits row, for
the fudge classifier its logits row `[0, :]`. -/
structure FudgeInference where
  baseModel : List ℕ → List ℚ
  fudgeModel : List ℕ → List ℚ
  eosTokenId : ℕ
  labelMapping : List (String × ℤ)
  numLabels : ℤ
  targetClass : ℤ

/-- Construction-time error values (lines 42 and 46).  `unknownClass` carries
the provided name and the full list of valid class names, mirroring
`f"Unknown class name: {target_class}. Available classes: {...keys()}"`;
`outOfRange` carries the bounds named by
`f"target_class must be between 0 and {self.num_classes-1}"`. -/
inductive ConfigError where
  | unknownClass (provided : String) (available : List String)
  | outOfRange (lo hi : ℤ)
deriving DecidableEq

/-- Target-class resolution in `__init__` (lines 39-47): a string is looked up
in the label mapping and must be present; an integer must lie in
`0 ≤ idx < num_classes`. -/
def resolveTargetClass (labelMapping : List (String × ℤ)) (numLabels : ℤ) :
    String ⊕ ℤ → Except ConfigError ℤ
  | .inl name =>
    match labelMapping.lookup name with
    | some v => .ok v
    | none => .error (.unknownClass name (labelMapping.map Prod.fst))
  | .inr idx =>
    if 0 ≤ idx ∧ idx < numLabels then .ok idx
    else .error (.outOfRange 0 (numLabels - 1))

/-- Lines 125-130: the per-step base distribution, computed with
`top_k=None` (top-k is deferred) and `top_p=base_top_p`. -/
def baseDistOf (E : ℚ → ℚ) (bM : List ℕ → List ℚ) (ps : GenParams)
    (toks : List ℕ) : List ℚ :=
  getNextTokenDistribution E (bM toks) ps.temperature none ps.baseTopP

/-- Lines 132-136: the candidate set, the top `min(fudge_top_k, vocab)`
entries of the base distribution as (probability, token id) pairs. -/
def candidatesOf (E : ℚ → ℚ) (bM : List ℕ → List ℚ) (ps : GenParams)
    (toks : List ℕ) : List (ℚ × ℕ) :=
  topkPairs (baseDistOf E bM ps toks)
    (min ps.fudgeTopK (baseDistOf E bM ps toks).length)

/-- Lines 138-149: one auxiliary score per candidate — output channel `1` of
the fudge classifier run on the hypothetically extended sequence
(`fudge_outputs['logits'][0, 1]`).  The stored target class is not consulted. -/
def fudgeScoresOf (E : ℚ → ℚ) (bM fM : List ℕ → List ℚ) (ps : GenParams)
    (toks : List ℕ) : List ℚ :=
  (candidatesOf E bM ps toks).map (fun c => (fM (toks ++ [c.2])).getD 1 0)

/-- Line 153: softmax of the auxiliary scores scaled by `fudge_temperature`. -/
def fudgeDistOf (E : ℚ → ℚ) (bM fM : List ℕ → List ℚ) (ps : GenParams)
    (toks : List ℕ) : List ℚ :=
  softmaxQ E ((fudgeScoresOf E bM fM ps toks).map (fun x => x / ps.fudgeTemperature))

/-- Line 154: per-candidate fusion
`(1 - lambda_weight) * candidate_values + lambda_weight * fudge_distribution`. -/
def combinedScoresOf (E : ℚ → ℚ) (bM fM : List ℕ → List ℚ) (ps : GenParams)
    (toks : List ℕ) : List ℚ :=
  List.zipWith (fun b f => (1 - ps.lambdaWeight) * b + ps.lambdaWeight * f)
    ((candidatesOf E bM ps toks).map Prod.fst) (fudgeDistOf E bM fM ps toks)

/-- Lines 156-158: scatter the fused candidate scores into a vocabulary-sized
vector of zeros. -/
def combinedFullOf (E : ℚ → ℚ) (bM fM : List ℕ → List ℚ) (ps : GenParams)
    (toks : List ℕ) : List ℚ :=
  scatterWrite (List.replicate (baseDistOf E bM ps toks).length 0)
    ((candidatesOf E bM ps toks).map Prod.snd) (combinedScoresOf E bM fM ps toks)

/-- Lines 160-166: if `base_top_k` is configured, keep only the top
`min(base_top_k, vocab)` entries of the combined vector, scattered back into a
fresh vector of zeros. -/
def truncatedOf (E : ℚ → ℚ) (bM fM : List ℕ → List ℚ) (ps : GenParams)
    (toks : List ℕ) : List ℚ :=
  match ps.baseTopK with
  | none => combinedFullOf E bM fM ps toks
  | some k =>
    scatterWrite (List.replicate (combinedFullOf E bM fM ps toks).length 0)
      ((topkPairs (combinedFullOf E bM fM ps toks)
        (min k (combinedFullOf E bM fM ps toks).length)).map Prod.snd)
      ((topkPairs (combinedFullOf E bM fM ps toks)
        (min k (combinedFullOf E bM fM ps toks).length)).map Prod.fst)

/-- Walk the weight list, subtracting until the draw lands in an entry's
cumulative span. -/
def pickIndex : List ℚ → ℚ → ℕ
  | [], _ => 0
  | a :: l, r => if r < a then 0 else pickIndex l (r - a) + 1

/-- Modelled from the spec: `torch.multinomial(weights, num_samples=1)`
(line 169) is an external primitive; per its documented behaviour and the
spec's requirement, it draws one index with probability proportional to the
weights and fails loudly when the total mass is not positive
("sampling must fail loudly rather than silently returning index 0").
`r ∈ [0, 1)` abstracts the RNG draw. -/
def multinomial (w : List ℚ) (r : ℚ) : Except Unit ℕ :=
  if w.sum ≤ 0 then .error () else .ok (pickIndex w (r * w.sum))

/-- The decoding loop of `generate_with_fudge` (lines 123-175): up to
`max_length` iterations; each iteration samples from the step's combined
distribution, appends the sampled token, and stops early when it equals the
end-of-sequence id.  `stepDist` is the per-step distribution builder and `rs`
the stream of RNG draws; a sampling failure aborts the whole call, as an
uncaught exception does. -/
def generateTokens (stepDist : List ℕ → List ℚ) (eos : ℕ) :
    ℕ → List ℚ → List ℕ → Except Unit (List ℕ)
  | 0, _, toks => .ok toks
  | n + 1, rs, toks =>
    match multinomial (stepDist toks) (rs.headD 0) with
    | .error e => .error e
    | .ok t =>
      if t = eos then .ok (toks ++ [t])
      else generateTokens stepDist eos n rs.tail (toks ++ [t])

/-- `generate_with_fudge` (lines 95-177) at the token level: the prompt is
already encoded (the tokenizer is external), and the returned token sequence
stands for the decoded text.  Of the constructed state it reads only the two
models and the end-of-sequence id. -/
def FudgeInference.generateWithFudge (s : FudgeInference) (E : ℚ → ℚ)
    (ps : GenParams) (rs : List ℚ) (prompt : List ℕ) (maxLength : ℕ) :
    Except Unit (List ℕ) :=
  generateTokens (fun toks => truncatedOf E s.baseModel s.fudgeModel ps toks)
    s.eosTokenId maxLength rs prompt

/-- Replace only the fusion weight of a parameter record (used to state the
`lambda_weight = 0` / `= 1` degenerate cases of the fusion step). -/
def withLambda (ps : GenParams) (lam : ℚ) : GenParams :=
  GenParams.mk ps.temperature ps.fudgeTemperature ps.baseTopK ps.baseTopP ps.fudgeTopK lam

/-! ### Concrete fixtures used by counterexamples and witnesses -/

/-- A constant positive stand-in for the exponential.  The counterexamples
using it only apply it to equal arguments, where any exponential-like function
gives equal weights. -/
def Eone : ℚ → ℚ := fun _ => 1

/-- An everywhere-positive, strictly increasing rational stand-in for the
exponential, with `Eex x = x` for `x ≥ 1`. -/
def Eex : ℚ → ℚ := fun x => if x < 1 then 1 / (2 - x) else x

/-- A zero stand-in for the exponential: models the degenerate float case in
which every weight underflows to `0`. -/
def Ezero : ℚ → ℚ := fun _ => 0

/-- A concrete causal base model over a two-token vocabulary: one logits row
per input position, as a causal language model's output is shaped. -/
def exampleSeqModel : List ℕ → List (List ℚ) :=
  fun toks => toks.map (fun _ => [1, 2])

/-- The two-class label mapping of the spec's examples. -/
def exampleMapping : List (String × ℤ) := [("positive", 0), ("negative", 1)]

/-- Generation parameters used by the concrete fixtures. -/
def exampleParams : GenParams :=
  GenParams.mk 1 1 (some 2) none 2 (1 / 2)

/-- A concrete decoder state over a two-token vocabulary. -/
def exampleInference : FudgeInference :=
  FudgeInference.mk (fun _ => [1, 2]) (fun _ => [0, 0]) 0 exampleMapping 2 0

/-- The same decoder state with the other target class. -/
def exampleInference' : FudgeInference :=
  FudgeInference.mk (fun _ => [1, 2]) (fun _ => [0, 0]) 0 exampleMapping 2 1

/-- A decoder state whose exponential underflow makes every step weight zero
(used to exhibit the all-zero sampling failure). -/
def zeroInference : FudgeInference :=
  FudgeInference.mk (fun _ => [1, 1]) (fun _ => [0, 0]) 0 exampleMapping 2 0

/-! ### Order instances for the sort relations -/

instance geIsTotal {α : Type} [LinearOrder α] : IsTotal α (· ≥ ·) :=
  ⟨fun a b => le_total b a⟩

instance geIsTrans {α : Type} [LinearOrder α] : IsTrans α (· ≥ ·) :=
  ⟨fun _ _ _ h h' => le_trans h' h⟩

instance geIsAntisymm {α : Type} [LinearOrder α] : IsAntisymm α (· ≥ ·) :=
  ⟨fun _ _ h h' => le_antisymm h' h⟩

instance keyRelIsTotal {α : Type} [LinearOrder α] : IsTotal (α × ℕ) keyRel := by
  constructor
  intro a b
  rcases lt_trichotomy a.1 b.1 with h | h | h
  · exact Or.inr (Or.inl h)
  · rcases le_total a.2 b.2 with h2 | h2
    · exact Or.inl (Or.inr ⟨h, h2⟩)
    · exact Or.inr (Or.inr ⟨h.symm, h2⟩)
  · exact Or.inl (Or.inl h)

instance keyRelIsTrans {α : Type} [LinearOrder α] : IsTrans (α × ℕ) keyRel := by
  constructor
  intro a b c hab hbc
  rcases hab with h1 | ⟨h1, h1'⟩
  · rcases hbc with h2 | ⟨h2, h2'⟩
    · exact Or.inl (lt_trans h2 h1)
    · exact Or.inl (h2 ▸ h1)
  · rcases hbc with h2 | ⟨h2, h2'⟩
    · exact Or.inl (h1 ▸ h2)
    · exact Or.inr ⟨h1.trans h2, h1'.trans h2'⟩

/-! ## Helper lemmas -/

lemma length_softmaxW (E : ℚ → ℚ) (xs : List (WithBot ℚ)) :
    (softmaxW E xs).length = xs.length := by
  simp [softmaxW]

lemma length_softmaxQ (E : ℚ → ℚ) (xs : List ℚ) :
    (softmaxQ E xs).length = xs.length := by
  simp [softmaxQ]

lemma length_fudgeDistOf (E : ℚ → ℚ) (bM fM : List ℕ → List ℚ) (ps : GenParams)
    (toks : List ℕ) :
    (fudgeDistOf E bM fM ps toks).length = (candidatesOf E bM ps toks).length := by
  simp [fudgeDistOf, length_softmaxQ, fudgeScoresOf]

lemma zipWith_getD_comb (f : ℚ → ℚ → ℚ) (hf : f 0 0 = 0) :
    ∀ (l1 l2 : List ℚ), l1.length = l2.length →
      ∀ i, (List.zipWith f l1 l2).getD i 0 = f (l1.getD i 0) (l2.getD i 0) := by
  intro l1
  induction l1 with
  | nil =>
    intro l2 h i
    cases l2 with
    | nil => simpa using hf.symm
    | cons b t => simp at h
  | cons a t ih =>
    intro l2 h i
    cases l2 with
    | nil => simp at h
    | cons b t2 =>
      cases i with
      | zero => simp
      | succ j =>
        simp only [List.zipWith_cons_cons, List.getD_cons_succ]
        exact ih t2 (by simpa using h) j

lemma zipWith_left_proj :
    ∀ (l1 l2 : List ℚ), l1.length = l2.length →
      List.zipWith (fun a _ => a) l1 l2 = l1 := by
  intro l1
  induction l1 with
  | nil => intro l2 h; simp
  | cons a t ih =>
    intro l2 h
    cases l2 with
    | nil => simp at h
    | cons b t2 => simpa using ih t2 (by simpa using h)

lemma zipWith_right_proj :
    ∀ (l1 l2 : List ℚ), l1.length = l2.length →
      List.zipWith (fun _ b => b) l1 l2 = l2 := by
  intro l1
  induction l1 with
  | nil =>
    intro l2 h
    cases l2 with
    | nil => simp
    | cons b t => simp at h
  | cons a t ih =>
    intro l2 h
    cases l2 with
    | nil => simp at h
    | cons b t2 => simpa using ih t2 (by simpa using h)

/-- A member of `topkPairs` is a genuine (value, index) pair of the input
vector: the index is in range and the value is the vector's entry there. -/
lemma mem_topkPairs {l : List ℚ} {k : ℕ} {pr : ℚ × ℕ} (h : pr ∈ topkPairs l k) :
    pr.2 < l.length ∧ l.getD pr.2 0 = pr.1 := by
  have h1 : pr ∈ sortedPairs l := List.take_subset k _ h
  have h2 : pr ∈ l.enum.map (fun q => (q.2, q.1)) :=
    (List.perm_insertionSort keyRel _).subset h1
  obtain ⟨q, hq, hqe⟩ := List.mem_map.mp h2
  obtain ⟨i, a, rfl⟩ : ∃ i a, q = (i, a) := ⟨q.1, q.2, rfl⟩
  have hia := List.mem_enum_iff_getElem?.mp hq
  cases hqe
  have hlt : i < l.length := by
    have := List.getElem?_eq_some.mp hia
    exact this.1
  refine ⟨hlt, ?_⟩
  have : l[i] = a := by
    have := List.getElem?_eq_some.mp hia
    exact this.2
  simp [List.getD_eq_getElem?_getD, List.getElem?_eq_getElem hlt, this]

lemma length_scatterWrite {α : Type} (base : List α) (idx : List ℕ) (vals : List α) :
    (scatterWrite base idx vals).length = base.length := by
  simp [scatterWrite]

lemma scatterWrite_getD {α : Type} (base : List α) (idx : List ℕ) (vals : List α)
    (j : ℕ) (d : α) (hj : j < base.length) :
    (scatterWrite base idx vals).getD j d =
      match (idx.zip vals).find? (fun q => q.1 == j) with
      | some q => q.2
      | none => base.getD j d := by
  have hj' : j < (scatterWrite base idx vals).length := by
    rw [length_scatterWrite]; exact hj
  rw [List.getD_eq_getElem _ _ hj', List.getD_eq_getElem _ _ hj]
  simp [scatterWrite, List.getElem_enum]

lemma scatterWrite_getD_of_not_mem {α : Type} (base : List α) (idx : List ℕ)
    (vals : List α) (j : ℕ) (d : α) (hj : j ∉ idx) :
    (scatterWrite base idx vals).getD j d = base.getD j d := by
  rcases lt_or_ge j base.length with h | h
  · rw [scatterWrite_getD base idx vals j d h]
    have : (idx.zip vals).find? (fun q => q.1 == j) = none := by
      rw [List.find?_eq_none]
      intro x hx
      have : x.1 ∈ idx := (List.of_mem_zip hx).1
      simp only [beq_iff_eq]
      intro he
      exact hj (he ▸ this)
    rw [this]
  · rw [List.getD_eq_default _ _ (by rw [length_scatterWrite]; exact h),
      List.getD_eq_default _ _ h]

lemma getD_replicate_zero (n j : ℕ) : (List.replicate n (0 : ℚ)).getD j 0 = 0 := by
  rcases lt_or_ge j n with h | h
  · rw [List.getD_eq_getElem _ _ (by simpa using h)]
    exact List.getElem_replicate _ _
  · exact List.getD_eq_default _ _ (by simpa using h)

lemma length_combinedFullOf (E : ℚ → ℚ) (bM fM : List ℕ → List ℚ) (ps : GenParams)
    (toks : List ℕ) :
    (combinedFullOf E bM fM ps toks).length = (baseDistOf E bM ps toks).length := by
  simp [combinedFullOf, length_scatterWrite]

lemma length_topkPairs (l : List ℚ) (k : ℕ) :
    (topkPairs l k).length = min k l.length := by
  simp [topkPairs, sortedPairs, List.length_insertionSort]

/-- The zipped (index, value) stream scattered by the re-truncation step reads
back the combined vector's own entries. -/
lemma zip_topkPairs_getD (c : List ℚ) (kk : ℕ) (q : ℕ × ℚ)
    (hq : q ∈ ((topkPairs c kk).map Prod.snd).zip ((topkPairs c kk).map Prod.fst)) :
    c.getD q.1 0 = q.2 := by
  obtain ⟨m, hm, hqe⟩ := List.mem_iff_getElem.mp hq
  have hmt : m < (topkPairs c kk).length := by
    simp [List.length_zip] at hm
    omega
  rw [List.getElem_zip] at hqe
  simp only [List.getElem_map] at hqe
  have hmem : (topkPairs c kk)[m] ∈ topkPairs c kk := List.getElem_mem _
  have hval := (mem_topkPairs hmem).2
  rw [← hqe]
  simpa using hval

/-- A vector of zeros overwritten at the positions of `idx` has at most
`idx.length` nonzero entries. -/
lemma countP_ne_zero_scatterWrite_le (n : ℕ) (idx : List ℕ) (vals : List ℚ) :
    (scatterWrite (List.replicate n 0) idx vals).countP (fun x => decide (x ≠ 0))
      ≤ idx.length := by
  unfold scatterWrite
  rw [List.countP_map]
  have step2 : (List.replicate n (0 : ℚ)).enum.countP
      ((fun i => decide (i ∈ idx)) ∘ (Prod.fst : ℕ × ℚ → ℕ))
      = (List.range n).countP (fun i => decide (i ∈ idx)) := by
    have h := List.countP_map (fun i => decide (i ∈ idx)) (Prod.fst : ℕ × ℚ → ℕ)
      (List.replicate n (0 : ℚ)).enum
    rw [List.enum_map_fst, List.length_replicate] at h
    exact h.symm
  have step3 : (List.range n).countP (fun i => decide (i ∈ idx)) ≤ idx.length := by
    rw [List.countP_eq_length_filter]
    refine (List.subperm_of_subset ((List.nodup_range n).filter _) ?_).length_le
    intro x hx
    simpa using List.of_mem_filter hx
  refine le_trans (List.countP_mono_left fun q hq hp => ?_) (step2.trans_le step3)
  simp only [Function.comp] at hp ⊢
  have hne := of_decide_eq_true hp
  cases hf : (idx.zip vals).find? (fun q2 => q2.1 == q.1) with
  | none =>
    exfalso
    apply hne
    rw [hf]
    have hq2 := List.mem_enum_iff_getElem?.mp hq
    have hsome : (List.replicate n (0 : ℚ))[q.1]? = some q.2 := hq2
    rcases List.getElem?_eq_some.mp hsome with ⟨hlt, hv⟩
    simp only [List.getElem_replicate] at hv
    exact hv.symm
  | some x =>
    have hx1 : x.1 ∈ idx := (List.of_mem_zip (List.mem_of_find?_eq_some hf)).1
    have hx2 : x.1 = q.1 := by simpa using List.find?_some hf
    exact decide_eq_true (hx2 ▸ hx1)

lemma length_cumsum (l : List ℚ) : (cumsum l).length = l.length := by
  simp [cumsum]

lemma expWeight_coe (E : ℚ → ℚ) (y : ℚ) : expWeight E (y : WithBot ℚ) = E y := rfl

lemma expWeight_bot (E : ℚ → ℚ) : expWeight E ⊥ = 0 := rfl

lemma expWeight_nonneg (E : ℚ → ℚ) (hE : ∀ x : ℚ, 0 < E x) (x : WithBot ℚ) :
    0 ≤ expWeight E x := by
  induction x using WithBot.recBotCoe with
  | bot => exact le_refl 0
  | coe y => exact (hE y).le

/-- In a descending-sorted list, at least `k` entries are at least as large as
the `k`-th entry. -/
lemma sorted_countP_kth_le {α : Type} [LinearOrder α] (s : List α)
    (hs : List.Sorted (· ≥ ·) s) (k : ℕ) (hk1 : 1 ≤ k) (hk : k ≤ s.length)
    (d0 : α) :
    k ≤ s.countP (fun x => decide (s.getD (k - 1) d0 ≤ x)) := by
  have hk1' : k - 1 < s.length := by omega
  have hget : s.getD (k - 1) d0 = s[k - 1] := List.getD_eq_getElem _ _ hk1'
  have htake : ∀ x ∈ s.take k, s.getD (k - 1) d0 ≤ x := by
    intro x hx
    obtain ⟨i, hi, hxe⟩ := List.mem_iff_getElem.mp hx
    have hil : i < k := by
      have h := hi
      simp only [List.length_take] at h
      omega
    have his : i < s.length := by
      have h := hi
      simp only [List.length_take] at h
      omega
    have hxe2 : s[i] = x := by
      rw [← hxe]
      exact (List.getElem_take s).symm
    rcases Nat.lt_or_ge i (k - 1) with hlt | hge
    · have hpw := List.pairwise_iff_getElem.mp hs i (k - 1) his hk1' hlt
      rw [hget, ← hxe2]
      exact hpw
    · have heq : i = k - 1 := by omega
      rw [hget, ← hxe2]
      subst heq
      exact le_refl _
  have hcount : (s.take k).countP (fun x => decide (s.getD (k - 1) d0 ≤ x))
      = (s.take k).length :=
    List.countP_eq_length.mpr fun a ha => decide_eq_true (htake a ha)
  have hlen : (s.take k).length = k := by
    simp only [List.length_take]
    omega
  calc k = (s.take k).countP (fun x => decide (s.getD (k - 1) d0 ≤ x)) := by
        rw [hcount, hlen]
    _ ≤ s.countP (fun x => decide (s.getD (k - 1) d0 ≤ x)) :=
        List.Sublist.countP_le _ (List.take_sublist k s)

/-- `find?` over the zip of a duplicate-free index list with its value list
locates exactly the `i`-th write. -/
lemma find_zip_eq {α : Type} :
    ∀ (idx : List ℕ) (vals : List α) (i : ℕ) (hnd : idx.Nodup)
      (hi : i < idx.length) (hiv : i < vals.length),
      (idx.zip vals).find? (fun q => q.1 == idx[i]) = some (idx[i], vals[i]) := by
  intro idx
  induction idx with
  | nil => intro vals i _ hi _; simp at hi
  | cons a idx' ih =>
    intro vals i hnd hi hiv
    cases vals with
    | nil => simp at hiv
    | cons v vals' =>
      cases i with
      | zero =>
        simp only [List.getElem_cons_zero]
        rw [List.zip_cons_cons, List.find?_cons_of_pos _ (by simp)]
      | succ m =>
        have hm : m < idx'.length := by simpa using hi
        have hmv : m < vals'.length := by simpa using hiv
        have hne : a ≠ idx'[m] := by
          intro he
          exact (List.nodup_cons.mp hnd).1 (he ▸ List.getElem_mem hm)
        simp only [List.getElem_cons_succ]
        rw [List.zip_cons_cons, List.find?_cons_of_neg _ (by simpa using hne)]
        exact ih vals' m (List.nodup_cons.mp hnd).2 hm hmv

/-- Reading a scattered vector back at the `i`-th written position yields the
`i`-th value, provided the indices are duplicate-free. -/
lemma scatterWrite_getD_at {α : Type} (base : List α) (idx : List ℕ) (vals : List α)
    (i : ℕ) (d : α) (hnd : idx.Nodup) (hi : i < idx.length) (hiv : i < vals.length)
    (hr : idx[i] < base.length) :
    (scatterWrite base idx vals).getD (idx[i]) d = vals[i] := by
  rw [scatterWrite_getD _ _ _ _ _ hr, find_zip_eq idx vals i hnd hi hiv]

/-- The original positions attached by `sortedPairs` are a permutation of the
position range. -/
lemma sortedPairs_snd_perm {α : Type} [LinearOrder α] (l : List α) :
    List.Perm ((sortedPairs l).map Prod.snd) (List.range l.length) := by
  have h := (List.perm_insertionSort keyRel (l.enum.map (fun q => (q.2, q.1)))).map
    Prod.snd
  have h2 : (l.enum.map (fun q => (q.2, q.1))).map Prod.snd = List.range l.length := by
    rw [List.map_map]
    exact List.enum_map_fst l
  rw [h2] at h
  exact h

/-! ## Claims -/

/-- **C7** (amended): only the temperature conjunct of the claim fails.
`get_next_token_distribution` does not validate the temperature: a call with
any temperature — positive or not — and a non-empty input succeeds, returning
a distribution.  The empty-input conjunct stands: the final-position slice
(line 78) fails on an empty sequence, before any filter runs, for every
temperature and filter setting.  `hshape` is the causal-model shape contract:
one logits row per input position. -/
theorem C7_no_temperature_validation (model : List ℕ → List (List ℚ))
    (hshape : ∀ toks : List ℕ, (model toks).length = toks.length)
    (E : ℚ → ℚ) (toks : List ℕ) (t : ℚ) (tk : Option ℕ) (tp : Option ℚ) :
    (toks = [] → getNextTokenDistributionSeq model E toks t tk tp
        = Except.error ()) ∧
    (toks ≠ [] → ∃ d : List ℚ,
      getNextTokenDistributionSeq model E toks t none tp = Except.ok d) := by
  constructor
  · intro h
    subst h
    have h0 : (model []).length = 0 := by rw [hshape]; rfl
    have he : model [] = [] := List.length_eq_zero.mp h0
    simp [getNextTokenDistributionSeq, lastLogitsRow, he]
  · intro h
    cases hml : (model toks).getLast? with
    | none =>
      exfalso
      apply h
      have hsh := hshape toks
      rw [List.getLast?_eq_none_iff.mp hml] at hsh
      exact List.length_eq_zero.mp hsh.symm
    | some row =>
      refine ⟨getNextTokenDistribution E row t none tp, ?_⟩
      simp [getNextTokenDistributionSeq, lastLogitsRow, hml]

/-- Witness for C7 on a concrete causal model: the empty sequence fails at
the final-position slice even at temperature `-1`, while a one-token sequence
at temperature `-1` succeeds. -/
theorem C7_no_temperature_validation_witness :
    (∀ toks : List ℕ, (exampleSeqModel toks).length = toks.length) ∧
    getNextTokenDistributionSeq exampleSeqModel Eone [] (-1) none none
        = Except.error () ∧
    ∃ d : List ℚ,
      getNextTokenDistributionSeq exampleSeqModel Eone [9] (-1) none none
        = Except.ok d := by
  have hshape : ∀ toks : List ℕ, (exampleSeqModel toks).length = toks.length := by
    intro toks
    simp [exampleSeqModel]
  refine ⟨hshape, ?_, ?_⟩
  · exact (C7_no_temperature_validation exampleSeqModel hshape Eone [] (-1)
      none none).1 rfl
  · exact (C7_no_temperature_validation exampleSeqModel hshape Eone [9] (-1)
      none none).2 (by simp)

/-- **C7** (counterexample to the original claim): a call with the
non-positive temperature `-1` on a non-empty one-token sequence does not
fail — it returns the distribution `[1/2, 1/2]`, where the claim asserts
every call with a non-positive temperature raises an error. -/
theorem C7_counterexample :
    getNextTokenDistributionSeq exampleSeqModel Eone [9] (-1) none none
      = Except.ok [1 / 2, 1 / 2] := by
  norm_num [getNextTokenDistributionSeq, lastLogitsRow, exampleSeqModel,
    getNextTokenDistribution, scaledLogits, softmaxW, expWeight, Eone,
    List.getLast?, -WithBot.coe_one, -WithBot.coe_ofNat]

/-- **C8**: construction fails on an unknown class name with an error naming
the provided value and the full list of valid class names; it fails on an
out-of-range integer index; and it succeeds, resolving the target class, on
any present name or in-range index. -/
theorem C8_construction_validation (m : List (String × ℤ)) (n : ℤ)
    (name : String) (idx : ℤ) :
    (m.lookup name = none →
      resolveTargetClass m n (.inl name) =
        .error (.unknownClass name (m.map Prod.fst))) ∧
    (∀ v, m.lookup name = some v →
      resolveTargetClass m n (.inl name) = .ok v) ∧
    (¬(0 ≤ idx ∧ idx < n) →
      resolveTargetClass m n (.inr idx) = .error (.outOfRange 0 (n - 1))) ∧
    (0 ≤ idx → idx < n → resolveTargetClass m n (.inr idx) = .ok idx) := by
  refine ⟨fun h => ?_, fun v h => ?_, fun h => ?_, fun h1 h2 => ?_⟩
  · simp [resolveTargetClass, h]
  · simp [resolveTargetClass, h]
  · simp [resolveTargetClass, h]
  · simp [resolveTargetClass, h1, h2]

/-- Witness for C8 at the two-class mapping `{"positive": 0, "negative": 1}`:
an unknown name fails naming the valid set, a known name resolves, an
out-of-range index fails, an in-range index resolves. -/
theorem C8_construction_validation_witness :
    (resolveTargetClass exampleMapping 2 (.inl "neutral") =
      .error (.unknownClass "neutral" ["positive", "negative"])) ∧
    (resolveTargetClass exampleMapping 2 (.inl "negative") = .ok 1) ∧
    (resolveTargetClass exampleMapping 2 (.inr 5) = .error (.outOfRange 0 1)) ∧
    (resolveTargetClass exampleMapping 2 (.inr 1) = .ok 1) := by
  refine ⟨?_, ?_, ?_, ?_⟩
  · have h := (C8_construction_validation exampleMapping 2 "neutral" 5).1 (by decide)
    simpa using h
  · exact (C8_construction_validation exampleMapping 2 "negative" 5).2.1 1 (by decide)
  · have h := (C8_construction_validation exampleMapping 2 "neutral" 5).2.2.1 (by decide)
    simpa using h
  · exact (C8_construction_validation exampleMapping 2 "neutral" 1).2.2.2
      (by decide) (by decide)

/-- **C9**: when the per-step combined vector after the `base_top_k`
re-truncation is all-zero, sampling fails loudly (the multinomial draw is an
error), rather than silently returning token index 0. -/
theorem C9_zero_mass_sampling_fails (E : ℚ → ℚ) (bM fM : List ℕ → List ℚ)
    (ps : GenParams) (toks : List ℕ) (r : ℚ)
    (h : ∀ x ∈ truncatedOf E bM fM ps toks, x = 0) :
    multinomial (truncatedOf E bM fM ps toks) r = .error () := by
  unfold multinomial
  rw [List.sum_eq_zero h]
  simp

/-- Witness for C9: a concrete step (every softmax weight underflown to zero)
whose truncated combined vector is `[0, 0]`, on which sampling errors. -/
theorem C9_zero_mass_sampling_fails_witness :
    (∀ x ∈ truncatedOf Ezero zeroInference.baseModel zeroInference.fudgeModel
        exampleParams [9], x = 0) ∧
    multinomial (truncatedOf Ezero zeroInference.baseModel zeroInference.fudgeModel
        exampleParams [9]) 0 = .error () := by
  have e : truncatedOf Ezero zeroInference.baseModel zeroInference.fudgeModel
      exampleParams [9] = [0, 0] := by
    norm_num [truncatedOf, combinedFullOf, combinedScoresOf, fudgeDistOf, fudgeScoresOf,
      candidatesOf, baseDistOf, topkPairs, getNextTokenDistribution, scaledLogits,
      sortedPairs, softmaxW, softmaxQ, expWeight, Ezero, scatterWrite, keyRel,
      Function.comp, zeroInference, exampleParams, List.insertionSort, List.orderedInsert,
      List.getD, List.enum, List.enumFrom, List.range, List.range.loop, List.take,
      List.find?_cons_of_pos, List.find?_cons_of_neg, List.find?_nil,
      -WithBot.coe_one, -WithBot.coe_ofNat]
  have h : ∀ x ∈ truncatedOf Ezero zeroInference.baseModel zeroInference.fudgeModel
      exampleParams [9], x = 0 := by
    rw [e]
    intro x hx
    simpa using hx
  exact ⟨h, C9_zero_mass_sampling_fails Ezero _ _ _ _ 0 h⟩

/-- **C10**: the generation output is independent of the resolved target
class: two decoder states that agree on the models and the end-of-sequence id
— but may differ arbitrarily in `targetClass` (and the rest of the checkpoint
metadata) — generate identically, because the auxiliary score is read from
fixed output channel 1 and the stored target class is never consulted. -/
theorem C10_target_class_noninterference (s1 s2 : FudgeInference) (E : ℚ → ℚ)
    (ps : GenParams) (rs : List ℚ) (prompt : List ℕ) (maxLength : ℕ)
    (hb : s1.baseModel = s2.baseModel) (hf : s1.fudgeModel = s2.fudgeModel)
    (he : s1.eosTokenId = s2.eosTokenId) :
    s1.generateWithFudge E ps rs prompt maxLength =
      s2.generateWithFudge E ps rs prompt maxLength := by
  unfold FudgeInference.generateWithFudge
  rw [hb, hf, he]

/-- Witness for C10: two concrete decoder states differing exactly in their
target class generate identically. -/
theorem C10_target_class_noninterference_witness :
    exampleInference.targetClass ≠ exampleInference'.targetClass ∧
    exampleInference.generateWithFudge Eone exampleParams [0, 0] [9] 2 =
      exampleInference'.generateWithFudge Eone exampleParams [0, 0] [9] 2 :=
  ⟨by decide,
    C10_target_class_noninterference exampleInference exampleInference' Eone
      exampleParams [0, 0] [9] 2 rfl rfl rfl⟩

/-- **C1**: in every decoding step the fused score of each candidate is the
convex combination `(1 − λ)·base_probability + λ·fudge_probability`, with the
base probability taken as-is from the step's base distribution (not
renormalized over the candidate set) and the fudge probability the softmax of
the auxiliary scores scaled by `fudge_temperature` (which is what
`fudgeDistOf` is, definitionally); `λ = 0` yields exactly the candidates'
base probabilities and `λ = 1` exactly the auxiliary softmax distribution. -/
theorem C1_fusion_convex (E : ℚ → ℚ) (bM fM : List ℕ → List ℚ) (ps : GenParams)
    (toks : List ℕ) :
    (∀ i : ℕ, (combinedScoresOf E bM fM ps toks).getD i 0
        = (1 - ps.lambdaWeight) * (((candidatesOf E bM ps toks).map Prod.fst).getD i 0)
          + ps.lambdaWeight * ((fudgeDistOf E bM fM ps toks).getD i 0)) ∧
    (∀ pr ∈ candidatesOf E bM ps toks,
      (baseDistOf E bM ps toks).getD pr.2 0 = pr.1) ∧
    combinedScoresOf E bM fM (withLambda ps 0) toks
      = (candidatesOf E bM (withLambda ps 0) toks).map Prod.fst ∧
    combinedScoresOf E bM fM (withLambda ps 1) toks
      = fudgeDistOf E bM fM (withLambda ps 1) toks := by
  refine ⟨fun i => ?_, fun pr hpr => ?_, ?_, ?_⟩
  · have hl : ((candidatesOf E bM ps toks).map Prod.fst).length
        = (fudgeDistOf E bM fM ps toks).length := by
      simp [length_fudgeDistOf]
    exact zipWith_getD_comb _ (by ring) _ _ hl i
  · exact (mem_topkPairs hpr).2
  · have hl : ((candidatesOf E bM (withLambda ps 0) toks).map Prod.fst).length
        = (fudgeDistOf E bM fM (withLambda ps 0) toks).length := by
      simp [length_fudgeDistOf]
    simp only [combinedScoresOf, withLambda, sub_zero, one_mul, zero_mul, add_zero]
    exact zipWith_left_proj _ _ hl
  · have hl : ((candidatesOf E bM (withLambda ps 1) toks).map Prod.fst).length
        = (fudgeDistOf E bM fM (withLambda ps 1) toks).length := by
      simp [length_fudgeDistOf]
    simp only [combinedScoresOf, withLambda, sub_self, zero_mul, one_mul, zero_add]
    exact zipWith_right_proj _ _ hl

/-- Witness for C1 at a concrete step: the candidate pairs of a two-token
vocabulary and the as-is base probability of the first candidate. -/
theorem C1_fusion_convex_witness :
    candidatesOf Eone (fun _ => [1, 2]) exampleParams [] = [(1 / 2, 0), (1 / 2, 1)] ∧
    (baseDistOf Eone (fun _ => [1, 2]) exampleParams []).getD 0 0 = 1 / 2 := by
  have e : candidatesOf Eone (fun _ => [1, 2]) exampleParams []
      = [(1 / 2, 0), (1 / 2, 1)] := by
    norm_num [candidatesOf, baseDistOf, topkPairs, getNextTokenDistribution, scaledLogits,
      sortedPairs, softmaxW, expWeight, Eone, keyRel, Function.comp, exampleParams,
      List.insertionSort, List.orderedInsert, List.enum, List.enumFrom, List.take,
      -WithBot.coe_one, -WithBot.coe_ofNat]
  refine ⟨e, ?_⟩
  have h := (C1_fusion_convex Eone (fun _ => [1, 2]) (fun _ => [0, 0])
      exampleParams []).2.1 (1 / 2, 0) (by rw [e]; simp)
  simpa using h

/-- The decoding loop, for any per-step distribution builder: a successful run
extends its input sequence as a prefix, appends at most `n` tokens, stops
short of `n` only by sampling the end-of-sequence id as its last token, and
never samples the end-of-sequence id at a non-final position. -/
lemma generateTokens_spec (f : List ℕ → List ℚ) (eos : ℕ) :
    ∀ (n : ℕ) (rs : List ℚ) (toks out : List ℕ),
      generateTokens f eos n rs toks = Except.ok out →
      toks <+: out ∧ out.length ≤ toks.length + n ∧
      (out.length < toks.length + n →
        out.drop toks.length ≠ [] ∧ (out.drop toks.length).getLast? = some eos) ∧
      (∀ t ∈ (out.drop toks.length).dropLast, t ≠ eos) := by
  intro n
  induction n with
  | zero =>
    intro rs toks out h
    obtain rfl : toks = out := by simpa [generateTokens] using h
    refine ⟨⟨[], by simp⟩, by simp, fun hlt => absurd hlt (by omega), ?_⟩
    simp [List.drop_length]
  | succ n ih =>
    intro rs toks out h
    simp only [generateTokens] at h
    cases hm : multinomial (f toks) (rs.headD 0) with
    | error e => rw [hm] at h; simp at h
    | ok t =>
      rw [hm] at h
      simp only at h
      by_cases ht : t = eos
      · rw [if_pos ht] at h
        obtain rfl : toks ++ [t] = out := by simpa using h
        refine ⟨⟨[t], rfl⟩, by simp, fun _ => ?_, ?_⟩
        · rw [List.drop_left]
          exact ⟨by simp, by simp [ht]⟩
        · rw [List.drop_left]
          simp
      · rw [if_neg ht] at h
        obtain ⟨hpre, hlen, hearly, hlast⟩ := ih rs.tail (toks ++ [t]) out h
        obtain ⟨rest, hrest⟩ := hpre
        subst hrest
        have hd1 : ((toks ++ [t]) ++ rest).drop toks.length = t :: rest := by
          rw [List.append_assoc]
          simp [List.drop_left]
        have hd2 : ((toks ++ [t]) ++ rest).drop (toks ++ [t]).length = rest :=
          List.drop_left _ _
        rw [hd2] at hearly hlast
        refine ⟨⟨[t] ++ rest, by simp⟩, ?_, fun hlt => ?_, ?_⟩
        · have hlen' := hlen
          simp only [List.length_append, List.length_cons, List.length_nil] at hlen' ⊢
          omega
        · have hr : rest ≠ [] ∧ rest.getLast? = some eos := by
            apply hearly
            simp only [List.length_append, List.length_cons, List.length_nil] at hlt ⊢
            omega
          rw [hd1]
          refine ⟨by simp, ?_⟩
          cases rest with
          | nil => exact absurd rfl hr.1
          | cons b rs' => rw [List.getLast?_cons_cons]; exact hr.2
        · rw [hd1]
          cases rest with
          | nil => simp
          | cons b rs' =>
            intro x hx
            rw [List.dropLast_cons₂] at hx
            rcases List.mem_cons.mp hx with rfl | hx'
            · exact ht
            · exact hlast x hx'

/-- **C6**: a successful `generate_with_fudge` run terminates leaving the
prompt as an unchanged prefix, appends at most `max_length` tokens, stops
before reaching `max_length` exactly when the sampled token equals the
end-of-sequence id (the early-stopped run's final appended token is the
end-of-sequence id, and the id is never sampled at any earlier position —
termination itself is structural: the loop runs at most `max_length`
iterations). -/
theorem C6_termination_and_stop (s : FudgeInference) (E : ℚ → ℚ) (ps : GenParams)
    (rs : List ℚ) (prompt : List ℕ) (maxLength : ℕ) (out : List ℕ)
    (h : s.generateWithFudge E ps rs prompt maxLength = Except.ok out) :
    prompt <+: out ∧ out.length ≤ prompt.length + maxLength ∧
    (out.length < prompt.length + maxLength →
      out.drop prompt.length ≠ [] ∧
      (out.drop prompt.length).getLast? = some s.eosTokenId) ∧
    (∀ t ∈ (out.drop prompt.length).dropLast, t ≠ s.eosTokenId) :=
  generateTokens_spec _ _ maxLength rs prompt out h

/-- Witness for C6: a concrete run that stops early by sampling the
end-of-sequence id. -/
theorem C6_termination_and_stop_witness :
    exampleInference.generateWithFudge Eone exampleParams [0, 0] [9] 2
        = Except.ok [9, 0] ∧
    ([9] <+: [9, 0] ∧ ([9, 0] : List ℕ).length ≤ ([9] : List ℕ).length + 2 ∧
      (([9, 0] : List ℕ).length < ([9] : List ℕ).length + 2 →
        ([9, 0] : List ℕ).drop ([9] : List ℕ).length ≠ [] ∧
        (([9, 0] : List ℕ).drop ([9] : List ℕ).length).getLast?
          = some exampleInference.eosTokenId) ∧
      (∀ t ∈ (([9, 0] : List ℕ).drop ([9] : List ℕ).length).dropLast,
        t ≠ exampleInference.eosTokenId)) := by
  have h : exampleInference.generateWithFudge Eone exampleParams [0, 0] [9] 2
      = Except.ok [9, 0] := by
    norm_num [FudgeInference.generateWithFudge, generateTokens, multinomial, pickIndex,
      truncatedOf, combinedFullOf, combinedScoresOf, fudgeDistOf, fudgeScoresOf,
      candidatesOf, baseDistOf, topkPairs, getNextTokenDistribution, scaledLogits,
      sortedPairs, softmaxW, softmaxQ, expWeight, Eone, scatterWrite, keyRel,
      Function.comp, exampleInference, exampleParams, List.insertionSort,
      List.orderedInsert, List.getD, List.enum, List.enumFrom, List.range,
      List.range.loop, List.take, List.find?_cons_of_pos, List.find?_cons_of_neg,
      List.find?_nil, -WithBot.coe_one, -WithBot.coe_ofNat]
  exact ⟨h, C6_termination_and_stop exampleInference Eone exampleParams [0, 0] [9] 2
    [9, 0] h⟩

/-- **C4**: each decoding step's candidate set has exactly
`min(fudge_top_k, vocab)` members with pairwise-distinct token ids; every
candidate's recorded base probability is the base distribution's own entry at
that token (the distribution computed without top-k filtering — `baseDistOf`
passes `top_k = none` by definition); and the recorded probabilities are
exactly the `min(fudge_top_k, vocab)` largest entries of that distribution. -/
theorem C4_candidate_selection (E : ℚ → ℚ) (bM : List ℕ → List ℚ) (ps : GenParams)
    (toks : List ℕ) :
    (candidatesOf E bM ps toks).length
        = min ps.fudgeTopK (baseDistOf E bM ps toks).length ∧
    ((candidatesOf E bM ps toks).map Prod.snd).Nodup ∧
    (∀ pr ∈ candidatesOf E bM ps toks,
      pr.2 < (baseDistOf E bM ps toks).length ∧
      (baseDistOf E bM ps toks).getD pr.2 0 = pr.1) ∧
    (candidatesOf E bM ps toks).map Prod.fst
        = (List.insertionSort (· ≥ ·) (baseDistOf E bM ps toks)).take
            (min ps.fudgeTopK (baseDistOf E bM ps toks).length) := by
  set d := baseDistOf E bM ps toks with hd
  have hlen_sorted : (sortedPairs d).length = d.length := by
    simp [sortedPairs, List.length_insertionSort]
  have hswap : (d.enum.map (fun q => (q.2, q.1))).map Prod.fst = d := by
    rw [List.map_map]
    exact List.enum_map_snd d
  have hswap2 : (d.enum.map (fun q => (q.2, q.1))).map Prod.snd = List.range d.length := by
    rw [List.map_map]
    exact List.enum_map_fst d
  refine ⟨?_, ?_, fun pr hpr => ⟨(mem_topkPairs hpr).1, (mem_topkPairs hpr).2⟩, ?_⟩
  · simp only [candidatesOf, topkPairs, List.length_take, hlen_sorted, ← hd]
    omega
  · have hsnd : List.Perm ((sortedPairs d).map Prod.snd) (List.range d.length) := by
      have h := (List.perm_insertionSort keyRel
        (d.enum.map (fun q => (q.2, q.1)))).map Prod.snd
      rwa [hswap2] at h
    have hnd : List.Nodup ((sortedPairs d).map Prod.snd) :=
      hsnd.nodup_iff.mpr (List.nodup_range _)
    have he : (candidatesOf E bM ps toks).map Prod.snd
        = ((sortedPairs d).map Prod.snd).take (min ps.fudgeTopK d.length) := by
      simp [candidatesOf, topkPairs, List.map_take, ← hd]
    rw [he]
    exact (List.take_sublist _ _).nodup hnd
  · have hsortA : List.Sorted (· ≥ ·) ((sortedPairs d).map Prod.fst) := by
      have hs : List.Sorted keyRel (sortedPairs d) :=
        List.sorted_insertionSort keyRel _
      exact List.Pairwise.map Prod.fst
        (fun a b hab => by
          rcases hab with h | ⟨h, _⟩
          · exact le_of_lt h
          · exact le_of_eq h.symm) hs
    have hpermA : List.Perm ((sortedPairs d).map Prod.fst) (List.insertionSort (· ≥ ·) d) := by
      have h1 : List.Perm ((sortedPairs d).map Prod.fst) d := by
        have h := (List.perm_insertionSort keyRel
          (d.enum.map (fun q => (q.2, q.1)))).map Prod.fst
        rwa [hswap] at h
      exact h1.trans (List.perm_insertionSort _ d).symm
    have hA : (sortedPairs d).map Prod.fst = List.insertionSort (· ≥ ·) d :=
      List.eq_of_perm_of_sorted hpermA hsortA (List.sorted_insertionSort _ _)
    have he2 : (candidatesOf E bM ps toks).map Prod.fst
        = ((sortedPairs d).map Prod.fst).take (min ps.fudgeTopK d.length) := by
      simp [candidatesOf, topkPairs, List.map_take, ← hd]
    rw [he2, hA]

/-- Witness for C4 on a two-token vocabulary: two candidates, distinct ids,
base probabilities read off the base distribution. -/
theorem C4_candidate_selection_witness :
    candidatesOf Eone (fun _ => [1, 2]) exampleParams [9] = [(1 / 2, 0), (1 / 2, 1)] ∧
    (candidatesOf Eone (fun _ => [1, 2]) exampleParams [9]).length
      = min exampleParams.fudgeTopK
          (baseDistOf Eone (fun _ => [1, 2]) exampleParams [9]).length ∧
    1 < (baseDistOf Eone (fun _ => [1, 2]) exampleParams [9]).length ∧
    (baseDistOf Eone (fun _ => [1, 2]) exampleParams [9]).getD 1 0 = 1 / 2 := by
  have e : candidatesOf Eone (fun _ => [1, 2]) exampleParams [9]
      = [(1 / 2, 0), (1 / 2, 1)] := by
    norm_num [candidatesOf, baseDistOf, topkPairs, getNextTokenDistribution, scaledLogits,
      sortedPairs, softmaxW, expWeight, Eone, keyRel, Function.comp, exampleParams,
      List.insertionSort, List.orderedInsert, List.enum, List.enumFrom, List.take,
      -WithBot.coe_one, -WithBot.coe_ofNat]
  have h := C4_candidate_selection Eone (fun _ => [1, 2]) exampleParams [9]
  have hm := h.2.2.1 (1 / 2, 1) (by rw [e]; simp)
  exact ⟨e, h.1, hm.1, by simpa using hm.2⟩

/-- **C5**: per step, the full-vocabulary combined vector is exactly zero at
every position outside the candidate set; after the optional `base_top_k`
re-truncation the support is still a subset of the candidate set, of size at
most `min(base_top_k, vocab)`. -/
theorem C5_combined_support (E : ℚ → ℚ) (bM fM : List ℕ → List ℚ) (ps : GenParams)
    (toks : List ℕ) :
    (∀ j : ℕ, j ∉ (candidatesOf E bM ps toks).map Prod.snd →
      (combinedFullOf E bM fM ps toks).getD j 0 = 0) ∧
    (∀ j : ℕ, (truncatedOf E bM fM ps toks).getD j 0 ≠ 0 →
      j ∈ (candidatesOf E bM ps toks).map Prod.snd) ∧
    (∀ k : ℕ, ps.baseTopK = some k →
      (truncatedOf E bM fM ps toks).countP (fun x => decide (x ≠ 0))
        ≤ min k (baseDistOf E bM ps toks).length) := by
  have hzero : ∀ j : ℕ, j ∉ (candidatesOf E bM ps toks).map Prod.snd →
      (combinedFullOf E bM fM ps toks).getD j 0 = 0 := by
    intro j hj
    unfold combinedFullOf
    rw [scatterWrite_getD_of_not_mem _ _ _ _ _ hj]
    exact getD_replicate_zero _ _
  refine ⟨hzero, ?_, ?_⟩
  · intro j hne
    by_contra hj
    apply hne
    rcases hbk : ps.baseTopK with _ | k
    · have htr : truncatedOf E bM fM ps toks = combinedFullOf E bM fM ps toks := by
        simp [truncatedOf, hbk]
      rw [htr]
      exact hzero j hj
    · have htr : truncatedOf E bM fM ps toks
          = scatterWrite (List.replicate (combinedFullOf E bM fM ps toks).length 0)
              ((topkPairs (combinedFullOf E bM fM ps toks)
                (min k (combinedFullOf E bM fM ps toks).length)).map Prod.snd)
              ((topkPairs (combinedFullOf E bM fM ps toks)
                (min k (combinedFullOf E bM fM ps toks).length)).map Prod.fst) := by
        simp [truncatedOf, hbk]
      rcases lt_or_ge j (combinedFullOf E bM fM ps toks).length with hjn | hjn
      · rw [htr, scatterWrite_getD _ _ _ _ _ (by simpa using hjn)]
        cases hf : (((topkPairs (combinedFullOf E bM fM ps toks)
            (min k (combinedFullOf E bM fM ps toks).length)).map Prod.snd).zip
            ((topkPairs (combinedFullOf E bM fM ps toks)
            (min k (combinedFullOf E bM fM ps toks).length)).map Prod.fst)).find?
            (fun q => q.1 == j) with
        | none => exact getD_replicate_zero _ _
        | some q =>
          have hqz := List.mem_of_find?_eq_some hf
          have hqe : q.1 = j := by simpa using List.find?_some hf
          have hval := zip_topkPairs_getD (combinedFullOf E bM fM ps toks)
            (min k (combinedFullOf E bM fM ps toks).length) q hqz
          rw [hqe] at hval
          show q.2 = 0
          rw [← hval]
          exact hzero j hj
      · rw [htr, List.getD_eq_default]
        rw [length_scatterWrite]
        simpa using hjn
  · intro k hbk
    have htr : truncatedOf E bM fM ps toks
        = scatterWrite (List.replicate (combinedFullOf E bM fM ps toks).length 0)
            ((topkPairs (combinedFullOf E bM fM ps toks)
              (min k (combinedFullOf E bM fM ps toks).length)).map Prod.snd)
            ((topkPairs (combinedFullOf E bM fM ps toks)
              (min k (combinedFullOf E bM fM ps toks).length)).map Prod.fst) := by
      simp [truncatedOf, hbk]
    rw [htr]
    have hle := countP_ne_zero_scatterWrite_le (combinedFullOf E bM fM ps toks).length
      ((topkPairs (combinedFullOf E bM fM ps toks)
        (min k (combinedFullOf E bM fM ps toks).length)).map Prod.snd)
      ((topkPairs (combinedFullOf E bM fM ps toks)
        (min k (combinedFullOf E bM fM ps toks).length)).map Prod.fst)
    refine hle.trans ?_
    rw [List.length_map, length_topkPairs,
      length_combinedFullOf E bM fM ps toks]
    omega

/-- Witness for C5 at a concrete step: zero mass off the candidate set, a
nonzero truncated entry lies in the candidate set, and the truncated support
is within the `base_top_k` bound. -/
theorem C5_combined_support_witness :
    (combinedFullOf Eone (fun _ => [1, 2]) (fun _ => [0, 0]) exampleParams [7]).getD 5 0
        = 0 ∧
    0 ∈ (candidatesOf Eone (fun _ => [1, 2]) exampleParams [7]).map Prod.snd ∧
    (truncatedOf Eone (fun _ => [1, 2]) (fun _ => [0, 0]) exampleParams [7]).countP
        (fun x => decide (x ≠ 0))
      ≤ min 2 (baseDistOf Eone (fun _ => [1, 2]) exampleParams [7]).length := by
  have h := C5_combined_support Eone (fun _ => [1, 2]) (fun _ => [0, 0])
    exampleParams [7]
  have ecand : (candidatesOf Eone (fun _ => [1, 2]) exampleParams [7]).map Prod.snd
      = [0, 1] := by
    norm_num [candidatesOf, baseDistOf, topkPairs, getNextTokenDistribution, scaledLogits,
      sortedPairs, softmaxW, expWeight, Eone, keyRel, Function.comp, exampleParams,
      List.insertionSort, List.orderedInsert, List.enum, List.enumFrom, List.take,
      -WithBot.coe_one, -WithBot.coe_ofNat]
  have etr : truncatedOf Eone (fun _ => [1, 2]) (fun _ => [0, 0]) exampleParams [7]
      = [1 / 2, 1 / 2] := by
    norm_num [truncatedOf, combinedFullOf, combinedScoresOf, fudgeDistOf, fudgeScoresOf,
      candidatesOf, baseDistOf, topkPairs, getNextTokenDistribution, scaledLogits,
      sortedPairs, softmaxW, softmaxQ, expWeight, Eone, scatterWrite, keyRel,
      Function.comp, exampleParams, List.insertionSort, List.orderedInsert, List.getD,
      List.enum, List.enumFrom, List.range, List.range.loop, List.take,
      List.find?_cons_of_pos, List.find?_cons_of_neg, List.find?_nil,
      -WithBot.coe_one, -WithBot.coe_ofNat]
  refine ⟨h.1 5 (by rw [ecand]; decide), ?_, h.2.2 2 rfl⟩
  apply h.2.1 0
  rw [etr]
  norm_num

/-- **C2** (amended): the top-k filter keeps exactly the positions whose
scaled score is at least the k-th largest scaled score — so at least `k`
positions stay nonzero, and more than `k` survive when scores tie at the k-th
largest value (the filter masks only scores strictly below the threshold,
line 81). -/
theorem C2_amended (E : ℚ → ℚ) (hE : ∀ x : ℚ, 0 < E x) (logits : List ℚ) (t : ℚ)
    (k : ℕ) (hk1 : 1 ≤ k) (hkn : k ≤ logits.length) :
    (∀ i : ℕ, i < logits.length →
      ((getNextTokenDistribution E logits t (some k) none).getD i 0 ≠ 0 ↔
        kthValue (scaledLogits logits t) k ≤ (scaledLogits logits t).getD i ⊥)) ∧
    k ≤ (getNextTokenDistribution E logits t (some k) none).countP
        (fun x => decide (x ≠ 0)) := by
  set xs := scaledLogits logits t with hxs
  have hlen : xs.length = logits.length := by simp [hxs, scaledLogits]
  have hslen : (sortDescW xs).length = xs.length := by
    simp [sortDescW, List.length_insertionSort]
  have hks : k - 1 < (sortDescW xs).length := by omega
  have hkv_get : kthValue xs k = (sortDescW xs)[k - 1] := by
    unfold kthValue
    exact List.getD_eq_getElem _ _ hks
  have hkv_mem : kthValue xs k ∈ xs := by
    rw [hkv_get]
    exact (List.perm_insertionSort _ _).subset (List.getElem_mem _)
  have hcoe : ∀ x ∈ xs, ∃ y : ℚ, x = (y : WithBot ℚ) := by
    intro x hx
    rw [hxs] at hx
    obtain ⟨y, _, hy⟩ := List.mem_map.mp hx
    exact ⟨_, hy.symm⟩
  have hdist : getNextTokenDistribution E logits t (some k) none
      = softmaxW E (topKFilter k xs) := by
    simp [getNextTokenDistribution, hxs]
  have hflen : (topKFilter k xs).length = xs.length := by simp [topKFilter]
  -- the k-th largest value itself survives the mask, making the weight sum positive
  obtain ⟨j, hj, hje⟩ := List.mem_iff_getElem.mp hkv_mem
  obtain ⟨yk, hyk⟩ := hcoe _ hkv_mem
  have hnotltj : ¬ xs[j] < kthValue xs k := by
    rw [hje]
    exact lt_irrefl _
  have hjf : j < (topKFilter k xs).length := by omega
  have hwj : (topKFilter k xs)[j] = xs[j] := by
    simp only [topKFilter, List.getElem_map]
    exact if_neg hnotltj
  have hS_pos : 0 < ((topKFilter k xs).map (expWeight E)).sum := by
    have hjw : j < ((topKFilter k xs).map (expWeight E)).length := by
      simp only [List.length_map, hflen]
      exact hj
    have hmem : E yk ∈ (topKFilter k xs).map (expWeight E) := by
      have hv : ((topKFilter k xs).map (expWeight E))[j] = E yk := by
        simp only [List.getElem_map]
        rw [hwj, hje, hyk, expWeight_coe]
      rw [← hv]
      exact List.getElem_mem _
    have hnn : ∀ a ∈ (topKFilter k xs).map (expWeight E), 0 ≤ a := by
      intro a ha
      obtain ⟨x, _, hxa⟩ := List.mem_map.mp ha
      rw [← hxa]
      exact expWeight_nonneg E hE x
    exact lt_of_lt_of_le (hE yk) (List.single_le_sum hnn _ hmem)
  -- pointwise description of the output
  have hpoint : ∀ i : ℕ, (hxi : i < xs.length) →
      (getNextTokenDistribution E logits t (some k) none).getD i 0
        = expWeight E (if xs[i] < kthValue xs k then ⊥ else xs[i])
            / ((topKFilter k xs).map (expWeight E)).sum := by
    intro i hi
    rw [hdist]
    have hi2 : i < (softmaxW E (topKFilter k xs)).length := by
      rw [length_softmaxW, hflen]
      omega
    rw [List.getD_eq_getElem _ _ hi2]
    simp only [softmaxW, List.getElem_map, topKFilter]
  have hiff : ∀ i : ℕ, i < logits.length →
      ((getNextTokenDistribution E logits t (some k) none).getD i 0 ≠ 0 ↔
        kthValue xs k ≤ xs.getD i ⊥) := by
    intro i hi
    have hixs : i < xs.length := by omega
    rw [hpoint i hixs, List.getD_eq_getElem _ _ hixs]
    obtain ⟨y, hy⟩ := hcoe _ (List.getElem_mem hixs)
    by_cases hlt : xs[i] < kthValue xs k
    · rw [if_pos hlt, expWeight_bot]
      rw [zero_div]
      constructor
      · intro h
        exact absurd rfl h
      · intro h
        exact absurd hlt (not_lt.mpr h)
    · rw [if_neg hlt, hy, expWeight_coe]
      rw [hy] at hlt
      constructor
      · intro _
        exact not_lt.mp hlt
      · intro _
        exact ne_of_gt (div_pos (hE y) hS_pos)
  refine ⟨hiff, ?_⟩
  -- counting: reduce countP over the output to countP over the scores
  have hcount : (getNextTokenDistribution E logits t (some k) none).countP
      (fun x => decide (x ≠ 0))
      = xs.countP (fun x => decide (kthValue xs k ≤ x)) := by
    rw [hdist]
    simp only [softmaxW, topKFilter]
    rw [List.countP_map, List.countP_map, List.countP_map]
    refine List.countP_congr fun x hx => ?_
    obtain ⟨y, hy⟩ := hcoe _ hx
    subst hy
    simp only [Function.comp, decide_eq_true_eq]
    by_cases hlt : (y : WithBot ℚ) < kthValue xs k
    · rw [if_pos hlt, expWeight_bot, zero_div]
      constructor
      · intro h
        exact absurd rfl h
      · intro h
        exact absurd hlt (not_lt.mpr h)
    · rw [if_neg hlt, expWeight_coe]
      constructor
      · intro _
        exact not_lt.mp hlt
      · intro _
        refine ne_of_gt (div_pos (hE y) ?_)
        simpa only [topKFilter] using hS_pos
  rw [hcount]
  have hperm : List.Perm xs (sortDescW xs) := (List.perm_insertionSort _ xs).symm
  rw [hperm.countP_eq]
  simp only [kthValue]
  exact sorted_countP_kth_le (sortDescW xs)
    (List.sorted_insertionSort _ _) k hk1 (by omega) ⊥

/-- **C2** (counterexample to the original claim): with a tie at the
k-th-largest score the survivor count exceeds `k`.  On logits `[1, 1]` with
`k = 1` both positions carry the k-th-largest score, both survive the filter
(which only masks scores strictly below the threshold), and the output has 2
nonzero entries, not `min 1 2 = 1`.  The weight function is positive, and as
the two scores are equal any exponential gives this same output. -/
theorem C2_counterexample :
    (∀ x : ℚ, 0 < Eone x) ∧
    ¬((getNextTokenDistribution Eone [1, 1] 1 (some 1) none).countP
        (fun x => decide (x ≠ 0)) = min 1 2) := by
  refine ⟨fun _ => one_pos, ?_⟩
  have e : getNextTokenDistribution Eone [1, 1] 1 (some 1) none = [1 / 2, 1 / 2] := by
    norm_num [getNextTokenDistribution, scaledLogits, topKFilter, kthValue, sortDescW,
      softmaxW, expWeight, Eone, List.insertionSort, List.orderedInsert, List.getD,
      -WithBot.coe_one, -WithBot.coe_ofNat]
  rw [e]
  norm_num [List.countP_cons, List.countP_nil]

/-- Witness for C2 (amended) at `logits = [5, 3]`, `k = 1`: the support is
characterized by the k-th-largest threshold and has at least one element. -/
theorem C2_amended_witness :
    (∀ x : ℚ, 0 < Eone x) ∧ (1 ≤ 1 ∧ 1 ≤ ([5, 3] : List ℚ).length) ∧
    ((∀ i : ℕ, i < ([5, 3] : List ℚ).length →
      ((getNextTokenDistribution Eone [5, 3] 1 (some 1) none).getD i 0 ≠ 0 ↔
        kthValue (scaledLogits [5, 3] 1) 1 ≤ (scaledLogits [5, 3] 1).getD i ⊥)) ∧
    1 ≤ (getNextTokenDistribution Eone [5, 3] 1 (some 1) none).countP
        (fun x => decide (x ≠ 0))) :=
  ⟨fun _ => one_pos, ⟨le_refl 1, by norm_num⟩,
    C2_amended Eone (fun _ => one_pos) [5, 3] 1 1 (le_refl 1) (by norm_num)⟩

lemma Eex_pos : ∀ x : ℚ, 0 < Eex x := by
  intro x
  by_cases h : x < 1
  · simp only [Eex, if_pos h]
    have h2 : (0 : ℚ) < 2 - x := by linarith
    exact div_pos one_pos h2
  · simp only [Eex, if_neg h]
    have := not_lt.mp h
    linarith

/-- **C3** (amended): the nucleus filter zeroes exactly those sorted ranks
`i ≥ 1` whose cumulative probability *exclusive* of the rank's own
probability — that is, the cumulative sum through rank `i − 1` — exceeds `p`
(the removal mask is shifted one position right, lines 88-89, so the first
rank crossing the threshold is also kept); the top-ranked position is always
retained with positive mass, so the support is never empty. -/
theorem C3_amended (E : ℚ → ℚ) (hE : ∀ x : ℚ, 0 < E x) (logits : List ℚ) (p : ℚ)
    (hn : 1 ≤ logits.length) :
    (∀ i : ℕ, 1 ≤ i → i < logits.length →
      ((getNextTokenDistribution E logits 1 none (some p)).getD
          (((sortedPairs (scaledLogits logits 1)).map Prod.snd).getD i 0) 0 = 0 ↔
        p < (cumsum (softmaxW E
            ((sortedPairs (scaledLogits logits 1)).map Prod.fst))).getD (i - 1) 0)) ∧
    0 < (getNextTokenDistribution E logits 1 none (some p)).getD
        (((sortedPairs (scaledLogits logits 1)).map Prod.snd).getD 0 0) 0 := by
  set xs := scaledLogits logits 1 with hxs
  have hlen : xs.length = logits.length := by simp [hxs, scaledLogits]
  set sIdx := (sortedPairs xs).map Prod.snd with hsIdx
  have hplen : (sortedPairs xs).length = xs.length := by
    simp [sortedPairs, List.length_insertionSort]
  have hsIlen : sIdx.length = xs.length := by simp [hsIdx, hplen]
  have hperm : List.Perm sIdx (List.range xs.length) := by
    rw [hsIdx]
    exact sortedPairs_snd_perm xs
  have hnd : sIdx.Nodup := hperm.nodup_iff.mpr (List.nodup_range _)
  have hbound : ∀ i : ℕ, (hi : i < sIdx.length) → sIdx[i] < xs.length := by
    intro i hi
    exact List.mem_range.mp (hperm.subset (List.getElem_mem hi))
  have hcoe0 : ∀ x ∈ xs, ∃ y : ℚ, x = (y : WithBot ℚ) := by
    intro x hx
    rw [hxs] at hx
    obtain ⟨y, _, hy⟩ := List.mem_map.mp hx
    exact ⟨_, hy.symm⟩
  have hcoe : ∀ jj : ℕ, jj < xs.length → ∃ y : ℚ, xs.getD jj ⊥ = (y : WithBot ℚ) := by
    intro jj h
    rw [List.getD_eq_getElem _ _ h]
    exact hcoe0 _ (List.getElem_mem h)
  set probs := softmaxW E ((sortedPairs xs).map Prod.fst) with hprobs
  set c := cumsum probs with hc
  set raw := c.map (fun q => decide (p < q)) with hraw
  set shifted := (false :: raw.dropLast : List Bool) with hshifted
  have hclen : c.length = xs.length := by
    rw [hc, length_cumsum, hprobs, length_softmaxW, List.length_map, hplen]
  have hrawlen : raw.length = xs.length := by simp [hraw, hclen]
  have hshlen : shifted.length = xs.length := by
    rw [hshifted]
    simp only [List.length_cons, List.length_dropLast, hrawlen]
    omega
  have hmask : topPRemove E p xs = scatterWrite shifted sIdx shifted := by
    simp only [topPRemove]
  have hmlen : (topPRemove E p xs).length = xs.length := by
    rw [hmask, length_scatterWrite, hshlen]
  have hdist : getNextTokenDistribution E logits 1 none (some p)
      = softmaxW E (applyRemove (topPRemove E p xs) xs) := by
    simp [getNextTokenDistribution, hxs]
  set ar := applyRemove (topPRemove E p xs) xs with har
  have harlen : ar.length = xs.length := by
    rw [har]
    simp only [applyRemove, List.length_zipWith, hmlen]
    omega
  have hbound2 : ∀ i : ℕ, i < xs.length → sIdx.getD i 0 < xs.length := by
    intro i hi
    have hiS : i < sIdx.length := by rw [hsIlen]; exact hi
    rw [List.getD_eq_getElem _ _ hiS]
    exact hbound i hiS
  have hmaskval : ∀ i : ℕ, i < xs.length →
      (topPRemove E p xs).getD (sIdx.getD i 0) false = shifted.getD i false := by
    intro i hi
    have hiS : i < sIdx.length := by rw [hsIlen]; exact hi
    have hish : i < shifted.length := by rw [hshlen]; exact hi
    rw [List.getD_eq_getElem sIdx 0 hiS, hmask,
      List.getD_eq_getElem shifted false hish]
    exact scatterWrite_getD_at shifted sIdx shifted i false hnd hiS hish
      (by rw [hshlen]; exact hbound i hiS)
  have harval : ∀ jj : ℕ, jj < xs.length →
      ar.getD jj ⊥
        = if (topPRemove E p xs).getD jj false = true then ⊥ else xs.getD jj ⊥ := by
    intro jj h
    have hb : jj < (topPRemove E p xs).length := by rw [hmlen]; exact h
    have e0 : ar.getD jj ⊥
        = (List.zipWith (fun x r => if r then (⊥ : WithBot ℚ) else x) xs
            (topPRemove E p xs)).getD jj ⊥ := rfl
    have hbz : jj < (List.zipWith (fun x r => if r then (⊥ : WithBot ℚ) else x) xs
        (topPRemove E p xs)).length := by
      rw [List.length_zipWith, hmlen]
      omega
    rw [e0, List.getD_eq_getElem _ _ hbz, List.getElem_zipWith,
      List.getD_eq_getElem _ _ hb, List.getD_eq_getElem _ _ h]
  have hdistpoint : ∀ jj : ℕ, jj < xs.length →
      (getNextTokenDistribution E logits 1 none (some p)).getD jj 0
        = expWeight E (ar.getD jj ⊥) / (ar.map (expWeight E)).sum := by
    intro jj h
    rw [hdist]
    have h2 : jj < (softmaxW E ar).length := by
      rw [length_softmaxW]
      omega
    have hja : jj < ar.length := by omega
    rw [List.getD_eq_getElem _ _ h2]
    simp only [softmaxW, List.getElem_map]
    rw [← List.getD_eq_getElem ar ⊥ hja]
  -- the top-ranked position survives, giving the weight sum a positive member
  have h0 : (0 : ℕ) < xs.length := by omega
  have hj0 : sIdx.getD 0 0 < xs.length := hbound2 0 h0
  have hsh0 : shifted.getD 0 false = false := by
    rw [hshifted]
    rfl
  have har0 : ar.getD (sIdx.getD 0 0) ⊥ = xs.getD (sIdx.getD 0 0) ⊥ := by
    rw [harval _ hj0, hmaskval 0 h0, hsh0]
    simp
  obtain ⟨y0, hy0⟩ := hcoe _ hj0
  have hS_pos : 0 < (ar.map (expWeight E)).sum := by
    have hja : sIdx.getD 0 0 < ar.length := by omega
    have hjm : sIdx.getD 0 0 < (ar.map (expWeight E)).length := by
      simp only [List.length_map]
      exact hja
    have hmem : E y0 ∈ ar.map (expWeight E) := by
      have hv : (ar.map (expWeight E))[sIdx.getD 0 0] = E y0 := by
        simp only [List.getElem_map]
        rw [← List.getD_eq_getElem ar ⊥ hja, har0, hy0, expWeight_coe]
      rw [← hv]
      exact List.getElem_mem _
    have hnn : ∀ a ∈ ar.map (expWeight E), 0 ≤ a := by
      intro a ha
      obtain ⟨x, _, hxa⟩ := List.mem_map.mp ha
      rw [← hxa]
      exact expWeight_nonneg E hE x
    exact lt_of_lt_of_le (hE y0) (List.single_le_sum hnn _ hmem)
  constructor
  · -- ranks `i ≥ 1`: removal iff the exclusive cumulative sum exceeds `p`
    intro i h1 hi
    have hixs : i < xs.length := by omega
    have hjlt : sIdx.getD i 0 < xs.length := hbound2 i hixs
    rw [hdistpoint _ hjlt, harval _ hjlt, hmaskval i hixs]
    have hshval : shifted.getD i false = decide (p < c.getD (i - 1) 0) := by
      obtain ⟨m, rfl⟩ : ∃ m, i = m + 1 := ⟨i - 1, by omega⟩
      rw [hshifted, List.getD_cons_succ]
      have hmd : m < raw.dropLast.length := by
        simp only [List.length_dropLast, hrawlen]
        omega
      have hmr : m < raw.length := by rw [hrawlen]; omega
      rw [List.getD_eq_getElem _ _ hmd, List.getElem_dropLast,
        ← List.getD_eq_getElem raw false hmr, hraw]
      have hmc : m < c.length := by rw [hclen]; omega
      rw [List.getD_eq_getElem _ _ (by simpa using hmc :
        m < (c.map (fun q => decide (p < q))).length)]
      rw [List.getElem_map]
      have e1 : m + 1 - 1 = m := by omega
      rw [e1, List.getD_eq_getElem _ _ hmc]
    rw [hshval]
    obtain ⟨y, hy⟩ := hcoe _ hjlt
    by_cases hp : p < c.getD (i - 1) 0
    · rw [if_pos (by simpa using hp), expWeight_bot, zero_div]
      exact iff_of_true rfl hp
    · rw [if_neg (by simpa using hp), hy, expWeight_coe]
      exact iff_of_false (ne_of_gt (div_pos (hE y) hS_pos)) hp
  · -- the top rank keeps positive mass
    rw [hdistpoint _ hj0, har0, hy0, expWeight_coe]
    exact div_pos (hE y0) hS_pos

/-- **C3** (counterexample to the original claim): with weights `8, 7, 5`
(already descending, so sorted rank = vocabulary position) and `p = 1/2`, the
rank-1 token's cumulative probability inclusive of itself is `3/4 > 1/2`, so
the claim says it is removed — but the filter keeps it with mass `7/15 ≠ 0`,
because the shifted mask tests the cumulative sum exclusive of the rank's own
probability (`2/5 ≤ 1/2`).  The weight function `Eex` is everywhere positive
and strictly increasing where evaluated. -/
theorem C3_counterexample :
    (∀ x : ℚ, 0 < Eex x) ∧
    1 / 2 < (cumsum (softmaxW Eex
        ((sortedPairs (scaledLogits [8, 7, 5] 1)).map Prod.fst))).getD 1 0 ∧
    (getNextTokenDistribution Eex [8, 7, 5] 1 none (some (1 / 2))).getD 1 0 ≠ 0 := by
  refine ⟨Eex_pos, ?_, ?_⟩
  · have e : cumsum (softmaxW Eex
        ((sortedPairs (scaledLogits [8, 7, 5] 1)).map Prod.fst)) = [2 / 5, 3 / 4, 1] := by
      norm_num [scaledLogits, sortedPairs, softmaxW, expWeight, Eex, cumsum,
        List.insertionSort, List.orderedInsert, List.enum, List.enumFrom, List.range,
        List.range.loop, List.take, keyRel, Function.comp,
        -WithBot.coe_one, -WithBot.coe_ofNat]
    rw [e]
    norm_num
  · have e : getNextTokenDistribution Eex [8, 7, 5] 1 none (some (1 / 2))
        = [8 / 15, 7 / 15, 0] := by
      norm_num [getNextTokenDistribution, scaledLogits, topPRemove, sortedPairs,
        applyRemove, softmaxW, expWeight, Eex, cumsum, scatterWrite, keyRel,
        Function.comp, List.insertionSort, List.orderedInsert, List.getD, List.enum,
        List.enumFrom, List.range, List.range.loop, List.take,
        List.find?_cons_of_pos, List.find?_cons_of_neg, List.find?_nil,
        -WithBot.coe_one, -WithBot.coe_ofNat]
    rw [e]
    norm_num

/-- Witness for C3 (amended) at weights `8, 7, 5`, `p = 1/2`, rank 1: the
characterization and the non-empty support, instantiated. -/
theorem C3_amended_witness :
    (∀ x : ℚ, 0 < Eex x) ∧ 1 ≤ ([8, 7, 5] : List ℚ).length ∧
    (((getNextTokenDistribution Eex [8, 7, 5] 1 none (some (1 / 2))).getD
          (((sortedPairs (scaledLogits [8, 7, 5] 1)).map Prod.snd).getD 1 0) 0 = 0 ↔
        1 / 2 < (cumsum (softmaxW Eex
            ((sortedPairs (scaledLogits [8, 7, 5] 1)).map Prod.fst))).getD 0 0) ∧
      0 < (getNextTokenDistribution Eex [8, 7, 5] 1 none (some (1 / 2))).getD
          (((sortedPairs (scaledLogits [8, 7, 5] 1)).map Prod.snd).getD 0 0) 0) := by
  have h := C3_amended Eex Eex_pos [8, 7, 5] (1 / 2) (by norm_num)
  exact ⟨Eex_pos, by norm_num, by simpa using h.1 1 (le_refl 1) (by norm_num), h.2⟩

end Fudge
